import Mathlib

/-!
Verification of the matrix-operator computed fields of the zinc field
evaluation engine (src/core/source/computed_field/computed_field_matrix_operators.cpp).

Fields produce flat row-major arrays of real values; we model the machine
`FE_value`/`double` carrier by the rationals so every definition stays
executable and exact.  Each `Computed_field_<op>::evaluate` method becomes a
Lean function from the (optional) source value caches to the optional output
cache; a `none` result models the C `return 0` failure path.  The
`Cmiss_field_module_create_<op>` factory functions become functions returning
`Option` of the constructed field data (component count and operator core);
`none` models the factory returning no field.
-/

namespace Zinc

/-- Carrier for FE_value / double values. -/
abbrev FE := ℚ

/-! ## Computed_field_get_square_matrix_size / Computed_field_is_square_matrix -/

/-- Loop of `Computed_field_get_square_matrix_size`: `while (n*n < size) n++;`. -/
def squareSizeLoop (size n : Nat) : Nat :=
  if h : n * n < size then squareSizeLoop size (n + 1) else n
termination_by size - n
decreasing_by
  have h1 : n < size := by
    rcases Nat.eq_zero_or_pos n with h0 | h0
    · omega
    · exact Nat.lt_of_le_of_lt (Nat.le_mul_of_pos_left n h0) h
  omega

/-- `Computed_field_get_square_matrix_size`: returns n with n*n = size, else 0. -/
def Computed_field_get_square_matrix_size (size : Nat) : Nat :=
  let n := squareSizeLoop size 1
  if n * n = size then n else 0

/-- `Computed_field_is_square_matrix`: numerical components and n*n size. -/
def Computed_field_is_square_matrix (numerical : Bool) (size : Nat) : Bool :=
  numerical && (Computed_field_get_square_matrix_size size != 0)

/-! ## determinant -/

/-- `Cmiss_field_module_create_determinant`: requires a square numerical source
with at most 9 components; result field has 1 component.  `none` = no field. -/
def Cmiss_field_module_create_determinant (numerical : Bool) (sourceComponents : Nat) :
    Option Nat :=
  if Computed_field_is_square_matrix numerical sourceComponents &&
      decide (sourceComponents ≤ 9) then
    some 1
  else
    none

/-- `Computed_field_determinant::evaluate`: switch on the source component count;
1, 4 and 9 components give the closed forms, anything else returns failure. -/
def Computed_field_determinant_evaluate (sourceComponents : Nat)
    (sourceCache : Option (List FE)) : Option FE :=
  match sourceCache with
  | none => none
  | some v =>
    match sourceComponents with
    | 1 => some (v.getD 0 0)
    | 4 => some (v.getD 0 0 * v.getD 3 0 - v.getD 1 0 * v.getD 2 0)
    | 9 => some
        (v.getD 0 0 * (v.getD 4 0 * v.getD 8 0 - v.getD 5 0 * v.getD 7 0) +
         v.getD 1 0 * (v.getD 5 0 * v.getD 6 0 - v.getD 3 0 * v.getD 8 0) +
         v.getD 2 0 * (v.getD 3 0 * v.getD 7 0 - v.getD 4 0 * v.getD 6 0))
    | _ => none

/-- Spec-side closed-form cofactor expansion of the row-major n x n matrix `a`,
expanding along the first row, for n = 1, 2, 3. -/
def cofactorExpansion (n : Nat) (a : Nat → FE) : FE :=
  match n with
  | 1 => a 0
  | 2 => a 0 * a 3 - a 1 * a 2
  | 3 => a 0 * (a 4 * a 8 - a 5 * a 7)
       - a 1 * (a 3 * a 8 - a 5 * a 6)
       + a 2 * (a 3 * a 7 - a 4 * a 6)
  | _ => 0

/-- Helper: the factory result forces the component count to be a square ≤ 9. -/
theorem create_determinant_some_square (numerical : Bool) (c : Nat)
    (h : (Cmiss_field_module_create_determinant numerical c).isSome) :
    ∃ n, n ≠ 0 ∧ n * n = c ∧ c ≤ 9 := by
  unfold Cmiss_field_module_create_determinant at h
  by_cases hc : Computed_field_is_square_matrix numerical c &&
      decide (c ≤ 9)
  · simp only [Bool.and_eq_true, decide_eq_true_eq] at hc
    obtain ⟨hsq, hle⟩ := hc
    unfold Computed_field_is_square_matrix at hsq
    simp only [Bool.and_eq_true, bne_iff_ne, ne_eq] at hsq
    refine ⟨Computed_field_get_square_matrix_size c, hsq.2, ?_, hle⟩
    unfold Computed_field_get_square_matrix_size at hsq ⊢
    by_cases hn : squareSizeLoop c 1 * squareSizeLoop c 1 = c
    · simp [hn]
    · simp [hn] at hsq
  · simp [hc] at h

/-- C1: for source component counts 1, 4 and 9 the determinant field evaluates
to the closed-form cofactor expansion of the 1x1, 2x2 or 3x3 row-major matrix
of source values; for any other component count
`Cmiss_field_module_create_determinant` returns no field. -/
theorem C1_determinant :
    (∀ numerical c, ¬(c = 1 ∨ c = 4 ∨ c = 9) →
      Cmiss_field_module_create_determinant numerical c = none) ∧
    (∀ v : List FE,
      Computed_field_determinant_evaluate 1 (some v) =
        some (cofactorExpansion 1 (fun i => v.getD i 0)) ∧
      Computed_field_determinant_evaluate 4 (some v) =
        some (cofactorExpansion 2 (fun i => v.getD i 0)) ∧
      Computed_field_determinant_evaluate 9 (some v) =
        some (cofactorExpansion 3 (fun i => v.getD i 0))) := by
  constructor
  · intro numerical c h
    cases hcr : Cmiss_field_module_create_determinant numerical c with
    | none => rfl
    | some k =>
      obtain ⟨n, hn0, hnn, hle⟩ :=
        create_determinant_some_square numerical c (by simp [hcr])
      have hn3 : n ≤ 3 := by nlinarith
      interval_cases n <;> omega
  · intro v
    refine ⟨rfl, ?_, ?_⟩
    · simp only [Computed_field_determinant_evaluate, cofactorExpansion]
    · simp only [Computed_field_determinant_evaluate, cofactorExpansion,
        Option.some.injEq]
      ring

/-- Witness for C1 at concrete inputs: a 5-component source fails construction
and a concrete 9-component source evaluates to its 3x3 cofactor expansion. -/
theorem C1_determinant_witness :
    Cmiss_field_module_create_determinant true 5 = none ∧
    Computed_field_determinant_evaluate 9
        (some [2, 0, 1, 1, 3, 0, 0, 1, 4]) =
      some (cofactorExpansion 3
        (fun i => ([2, 0, 1, 1, 3, 0, 0, 1, 4] : List FE).getD i 0)) :=
  ⟨C1_determinant.1 true 5 (by decide),
   (C1_determinant.2 [2, 0, 1, 1, 3, 0, 0, 1, 4]).2.2⟩

/-! ## RealFieldValueCache

Value cache of one field at one location: flat row-major values, flat
derivative array (component-major, `number_of_xi` directions per component)
and the derivatives-valid flag.  Generic in the entry type so that pure
index permutations can be stated for arbitrary entries. -/

structure RealFieldValueCache (α : Type) where
  values : List α
  derivatives : List α
  derivatives_valid : Bool
  deriving Repr, DecidableEq

/-- Reading index `i` from a mapped range picks out `f i`. -/
theorem getD_map_range {α : Type} (N : Nat) (f : Nat → α) (i : Nat) (d : α)
    (h : i < N) : ((List.range N).map f).getD i d = f i := by
  rw [List.getD_eq_getElem _ _ (by simpa using h)]
  simp

/-- A left fold accumulating additions over `List.range` is a finite sum. -/
theorem foldl_add_range (s : Nat) (f : Nat → FE) (init : FE) :
    (List.range s).foldl (fun acc k => acc + f k) init =
      init + ∑ k ∈ Finset.range s, f k := by
  induction s with
  | zero => simp
  | succ s ih =>
    rw [List.range_succ, List.foldl_append, ih, Finset.sum_range_succ]
    simp [add_assoc]

/-! ## matrix_multiply -/

/-- `Cmiss_field_module_create_matrix_multiply`: succeeds when
`number_of_rows` is positive, both sources are numerical, `nc1` is divisible
by `number_of_rows` with positive quotient `s`, and `nc2` is divisible by `s`
with positive quotient; returns the component count m*n of the new field. -/
def Cmiss_field_module_create_matrix_multiply (number_of_rows nc1 nc2 : Nat)
    (num1 num2 : Bool) : Option Nat :=
  if (0 < number_of_rows) && num1 && num2 &&
      (nc1 % number_of_rows == 0) && (0 < nc1 / number_of_rows) &&
      (nc2 % (nc1 / number_of_rows) == 0) &&
      (0 < nc2 / (nc1 / number_of_rows)) then
    some (number_of_rows * (nc2 / (nc1 / number_of_rows)))
  else
    none

/-- Value loop of `Computed_field_matrix_multiply::evaluate`: row-major
entry i*n+j accumulates sum over k of a[i*s+k] * b[k*n+j]. -/
def mmValues (m s n : Nat) (a b : List FE) : List FE :=
  (List.range (m * n)).map (fun idx =>
    (List.range s).foldl (fun sum k =>
      sum + a.getD ((idx / n) * s + k) 0 * b.getD (k * n + idx % n) 0) 0)

/-- Derivative loop of `Computed_field_matrix_multiply::evaluate` (product
rule): entry nxi*(i*n+j)+d accumulates a[i*s+k]*bd[nxi*(k*n+j)+d] +
ad[nxi*(i*s+k)+d]*b[k*n+j] over k. -/
def mmDerivatives (m s n nxi : Nat) (a b ad bd : List FE) : List FE :=
  (List.range (m * n * nxi)).map (fun idx =>
    (List.range s).foldl (fun sum k =>
      sum +
        a.getD ((idx / nxi / n) * s + k) 0 *
          bd.getD (nxi * (k * n + idx / nxi % n) + idx % nxi) 0 +
        ad.getD (nxi * ((idx / nxi / n) * s + k) + idx % nxi) 0 *
          b.getD (k * n + idx / nxi % n) 0) 0)

/-- Body of `Computed_field_matrix_multiply::evaluate` once both source
caches evaluated: s = nc1/m and n = nc2/s inferred from construction-time
shapes; derivatives valid only when requested and valid on both sources. -/
def Computed_field_matrix_multiply_evaluate_core (m nc1 nc2 nxi : Nat)
    (s1 s2 : RealFieldValueCache FE) : RealFieldValueCache FE :=
  if (nxi != 0) && s1.derivatives_valid && s2.derivatives_valid then
    ⟨mmValues m (nc1 / m) (nc2 / (nc1 / m)) s1.values s2.values,
     mmDerivatives m (nc1 / m) (nc2 / (nc1 / m)) nxi s1.values s2.values
       s1.derivatives s2.derivatives,
     true⟩
  else
    ⟨mmValues m (nc1 / m) (nc2 / (nc1 / m)) s1.values s2.values, [], false⟩

/-- `Computed_field_matrix_multiply::evaluate`: fails only when a source
cache failed to evaluate. -/
def Computed_field_matrix_multiply_evaluate (m nc1 nc2 nxi : Nat)
    (source1Cache source2Cache : Option (RealFieldValueCache FE)) :
    Option (RealFieldValueCache FE) :=
  match source1Cache, source2Cache with
  | some s1, some s2 =>
    some (Computed_field_matrix_multiply_evaluate_core m nc1 nc2 nxi s1 s2)
  | _, _ => none

/-- C3: matrix_multiply construction succeeds exactly when m > 0 and the two
divisions are exact with positive quotients, the field then having m*n
components; evaluation never fails once both sources evaluate; a successful
evaluation computes the standard row-major m-by-s times s-by-n product. -/
theorem C3_matrix_multiply :
    (∀ m nc1 nc2,
      (Cmiss_field_module_create_matrix_multiply m nc1 nc2 true true).isSome ↔
        (0 < m ∧ nc1 % m = 0 ∧ 0 < nc1 / m ∧
          nc2 % (nc1 / m) = 0 ∧ 0 < nc2 / (nc1 / m))) ∧
    (∀ m nc1 nc2 ncomp,
      Cmiss_field_module_create_matrix_multiply m nc1 nc2 true true = some ncomp →
        ncomp = m * (nc2 / (nc1 / m))) ∧
    (∀ m nc1 nc2 nxi s1 s2,
      (Computed_field_matrix_multiply_evaluate m nc1 nc2 nxi
        (some s1) (some s2)).isSome) ∧
    (∀ m s n nxi s1 s2 out, 0 < m → 0 < s →
      Computed_field_matrix_multiply_evaluate m (m * s) (s * n) nxi
        (some s1) (some s2) = some out →
      out.values.length = m * n ∧
      ∀ i j, i < m → j < n →
        out.values.getD (i * n + j) 0 =
          ∑ k ∈ Finset.range s,
            s1.values.getD (i * s + k) 0 * s2.values.getD (k * n + j) 0) := by
  refine ⟨?_, ?_, ?_, ?_⟩
  · intro m nc1 nc2
    unfold Cmiss_field_module_create_matrix_multiply
    by_cases h : (0 < m) && true && true && (nc1 % m == 0) && (0 < nc1 / m) &&
        (nc2 % (nc1 / m) == 0) && (0 < nc2 / (nc1 / m))
    · simp only [h, if_true, Option.isSome_some, true_iff]
      simp only [Bool.and_eq_true, decide_eq_true_eq, beq_iff_eq] at h
      tauto
    · simp only [h, if_false, Option.isSome_none, false_iff]
      simp only [Bool.and_eq_true, decide_eq_true_eq, beq_iff_eq] at h
      tauto
  · intro m nc1 nc2 ncomp h
    unfold Cmiss_field_module_create_matrix_multiply at h
    split at h
    · exact (Option.some.inj h).symm
    · exact absurd h (by simp)
  · intro m nc1 nc2 nxi s1 s2
    simp [Computed_field_matrix_multiply_evaluate]
  · intro m s n nxi s1 s2 out hm hs hout
    have hdiv1 : m * s / m = s := Nat.mul_div_cancel_left s hm
    have hdiv2 : s * n / s = n := Nat.mul_div_cancel_left n hs
    simp only [Computed_field_matrix_multiply_evaluate, Option.some.injEq] at hout
    have hvalues : out.values = mmValues m s n s1.values s2.values := by
      rw [← hout]
      unfold Computed_field_matrix_multiply_evaluate_core
      rw [hdiv1, hdiv2]
      by_cases h : (nxi != 0) && s1.derivatives_valid && s2.derivatives_valid <;>
        simp [h]
    constructor
    · rw [hvalues]; unfold mmValues; simp
    · intro i j hi hj
      have hidx : i * n + j < m * n := by
        calc i * n + j < i * n + n := by omega
          _ = (i + 1) * n := by ring
          _ ≤ m * n := Nat.mul_le_mul_right n hi
      rw [hvalues]
      unfold mmValues
      rw [getD_map_range _ _ _ _ hidx, foldl_add_range, zero_add]
      have hdivn : (i * n + j) / n = i := by
        rw [Nat.add_comm, Nat.add_mul_div_right j i (show 0 < n by omega)]
        simp [Nat.div_eq_of_lt hj]
      have hmodn : (i * n + j) % n = j := by
        rw [Nat.add_comm, Nat.add_mul_mod_self_right, Nat.mod_eq_of_lt hj]
      rw [hdivn, hmodn]

/-- Witness for C3 at concrete inputs: the construction characterization at
number_of_rows 2 with 4- and 4-component sources, and the product property at
a concrete 1x1 multiplication. -/
theorem C3_matrix_multiply_witness :
    ((Cmiss_field_module_create_matrix_multiply 2 4 4 true true).isSome ↔
      (0 < 2 ∧ 4 % 2 = 0 ∧ 0 < 4 / 2 ∧ 4 % (4 / 2) = 0 ∧ 0 < 4 / (4 / 2))) ∧
    (([6] : List FE).length = 1 * 1 ∧
      ∀ i j, i < 1 → j < 1 →
        ([6] : List FE).getD (i * 1 + j) 0 =
          ∑ k ∈ Finset.range 1,
            ([2] : List FE).getD (i * 1 + k) 0 *
              ([3] : List FE).getD (k * 1 + j) 0) :=
  ⟨C3_matrix_multiply.1 2 4 4,
   C3_matrix_multiply.2.2.2 1 1 1 0 ⟨[2], [], false⟩ ⟨[3], [], false⟩
     ⟨[6], [], false⟩ (by decide) (by decide)
     (by
       simp [Computed_field_matrix_multiply_evaluate,
         Computed_field_matrix_multiply_evaluate_core, mmValues,
         List.range_succ]
       norm_num)⟩

/-! ## transpose -/

/-- Row-major division helper: entry i*m+j of an m-column layout is in row i. -/
theorem rowmajor_div (m i j : Nat) (hj : j < m) : (i * m + j) / m = i := by
  rw [Nat.add_comm, Nat.add_mul_div_right j i (by omega)]
  simp [Nat.div_eq_of_lt hj]

/-- Row-major modulus helper: entry i*m+j of an m-column layout is in column j. -/
theorem rowmajor_mod (m i j : Nat) (hj : j < m) : (i * m + j) % m = j := by
  rw [Nat.add_comm, Nat.add_mul_mod_self_right, Nat.mod_eq_of_lt hj]

/-- Transposing the row-major index map twice is the identity. -/
theorem transpose_index_inv (m n i : Nat) (hi : i < m * n) :
    (((i % n) * m + i / n) % m) * n + ((i % n) * m + i / n) / m = i := by
  have hn : n ≠ 0 := by rintro rfl; simp at hi
  have h1 : i / n < m := Nat.div_lt_of_lt_mul (by rwa [Nat.mul_comm] at hi)
  rw [rowmajor_mod m (i % n) (i / n) h1, rowmajor_div m (i % n) (i / n) h1,
    Nat.mul_comm]
  exact Nat.div_add_mod i n

/-- `Cmiss_field_module_create_transpose`: positive row count, numerical
source, row count dividing the component count; result keeps c components. -/
def Cmiss_field_module_create_transpose (source_number_of_rows c : Nat)
    (numerical : Bool) : Option Nat :=
  if (0 < source_number_of_rows) && numerical &&
      (c % source_number_of_rows == 0) then
    some c
  else
    none

/-- Value loop of `Computed_field_transpose::evaluate`: for an m-row, n-column
source, output entry i*m+j reads source entry j*n+i. -/
def transposeValues {α : Type} [Inhabited α] (m n : Nat) (src : List α) :
    List α :=
  (List.range (n * m)).map (fun idx => src.getD ((idx % m) * n + idx / m) default)

/-- Derivative loop of `Computed_field_transpose::evaluate`: derivative blocks
are copied under exactly the same index permutation as the values. -/
def transposeDerivatives {α : Type} [Inhabited α] (m n nxi : Nat)
    (srcDerivs : List α) : List α :=
  (List.range (n * m * nxi)).map (fun idx =>
    srcDerivs.getD (nxi * ((idx / nxi % m) * n + idx / nxi / m) + idx % nxi)
      default)

/-- Body of `Computed_field_transpose::evaluate` once the source cache
evaluated; n = c/m columns inferred from the construction-time shape. -/
def Computed_field_transpose_evaluate_core {α : Type} [Inhabited α]
    (m c nxi : Nat) (s : RealFieldValueCache α) : RealFieldValueCache α :=
  if (nxi != 0) && s.derivatives_valid then
    ⟨transposeValues m (c / m) s.values,
     transposeDerivatives m (c / m) nxi s.derivatives, true⟩
  else
    ⟨transposeValues m (c / m) s.values, [], false⟩

/-- `Computed_field_transpose::evaluate`: fails only when the source cache
failed to evaluate. -/
def Computed_field_transpose_evaluate {α : Type} [Inhabited α] (m c nxi : Nat)
    (sourceCache : Option (RealFieldValueCache α)) :
    Option (RealFieldValueCache α) :=
  match sourceCache with
  | some s => some (Computed_field_transpose_evaluate_core m c nxi s)
  | none => none

/-- Double transpose is the identity on values lists of shape m x n. -/
theorem transposeValues_involutive {α : Type} [Inhabited α] (m n : Nat)
    (v : List α) (hv : v.length = m * n) :
    transposeValues n m (transposeValues m n v) = v := by
  apply List.ext_getElem
  · simp [transposeValues, hv]
  · intro i h1 h2
    have hi : i < m * n := by simpa [transposeValues] using h1
    have hk : (i % n) * m + i / n < n * m := by
      have hn : n ≠ 0 := by rintro rfl; simp at hi
      have hdn : i / n < m := Nat.div_lt_of_lt_mul (by rwa [Nat.mul_comm] at hi)
      have hmn : i % n < n := Nat.mod_lt i (by omega)
      calc (i % n) * m + i / n < (i % n) * m + m := by omega
        _ = (i % n + 1) * m := by ring
        _ ≤ n * m := Nat.mul_le_mul_right m (by omega)
    simp only [transposeValues, List.getElem_map, List.getElem_range]
    rw [getD_map_range _ _ _ _ hk, transpose_index_inv m n i hi,
      List.getD_eq_getElem _ _ (by omega)]

/-- Double transpose is the identity on derivative arrays of shape
m x n x nxi. -/
theorem transposeDerivatives_involutive {α : Type} [Inhabited α]
    (m n nxi : Nat) (dv : List α) (hd : dv.length = m * n * nxi) :
    transposeDerivatives n m nxi (transposeDerivatives m n nxi dv) = dv := by
  apply List.ext_getElem
  · simp [transposeDerivatives, hd, Nat.mul_comm, Nat.mul_assoc,
      Nat.mul_left_comm]
  · intro i h1 h2
    have hi : i < m * n * nxi := by
      have := h1
      simp only [transposeDerivatives, List.length_map, List.length_range] at this
      omega
    have hnxi : nxi ≠ 0 := by rintro rfl; simp at hi
    have hcomp : i / nxi < m * n := Nat.div_lt_of_lt_mul (by
      rwa [Nat.mul_comm (m * n) nxi] at hi)
    have hn : n ≠ 0 := by rintro rfl; simp at hcomp
    have hdn : i / nxi / n < m :=
      Nat.div_lt_of_lt_mul (by rwa [Nat.mul_comm] at hcomp)
    have hinner : (i / nxi % n) * m + i / nxi / n < n * m := by
      have hmn : i / nxi % n < n := Nat.mod_lt _ (by omega)
      calc (i / nxi % n) * m + i / nxi / n < (i / nxi % n) * m + m := by omega
        _ = (i / nxi % n + 1) * m := by ring
        _ ≤ n * m := Nat.mul_le_mul_right m (by omega)
    have hk : nxi * ((i / nxi % n) * m + i / nxi / n) + i % nxi < n * m * nxi := by
      have hmod : i % nxi < nxi := Nat.mod_lt _ (by omega)
      calc nxi * ((i / nxi % n) * m + i / nxi / n) + i % nxi
          < nxi * ((i / nxi % n) * m + i / nxi / n) + nxi := by omega
        _ = nxi * ((i / nxi % n) * m + i / nxi / n + 1) := by ring
        _ ≤ nxi * (n * m) := Nat.mul_le_mul_left nxi (by omega)
        _ = n * m * nxi := by ring
    simp only [transposeDerivatives, List.getElem_map, List.getElem_range]
    rw [getD_map_range _ _ _ _ hk]
    have hdiv : (nxi * ((i / nxi % n) * m + i / nxi / n) + i % nxi) / nxi =
        (i / nxi % n) * m + i / nxi / n := by
      rw [Nat.mul_add_div (by omega), Nat.div_eq_of_lt (Nat.mod_lt _ (by omega))]
      omega
    have hmod : (nxi * ((i / nxi % n) * m + i / nxi / n) + i % nxi) % nxi =
        i % nxi := by
      rw [Nat.mul_add_mod]
      exact Nat.mod_mod_of_dvd i dvd_rfl
    rw [hdiv, hmod, transpose_index_inv m n (i / nxi) hcomp,
      Nat.mul_comm nxi (i / nxi), Nat.div_add_mod' i nxi,
      List.getD_eq_getElem _ _ (by omega)]

/-- C6: for a source of c = m*n components with row count m dividing c,
transpose construction succeeds, evaluation is the pure index permutation
out[i*m+j] = source[j*n+i] with derivative blocks permuted identically, and
composing transpose with rows m then transpose with rows n reproduces the
original values and derivatives exactly, over any entry type (hence with no
floating-point operation at all). -/
theorem C6_transpose {α : Type} [Inhabited α] (m n nxi : Nat)
    (src : RealFieldValueCache α) (hm : 0 < m) (hn : 0 < n) (hnxi : 0 < nxi)
    (hv : src.values.length = m * n)
    (hd : src.derivatives.length = m * n * nxi)
    (hvalid : src.derivatives_valid = true) :
    (Cmiss_field_module_create_transpose m (m * n) true).isSome ∧
    (∀ out, Computed_field_transpose_evaluate m (m * n) nxi (some src) =
        some out →
      (∀ i j, i < n → j < m →
        out.values.getD (i * m + j) default =
          src.values.getD (j * n + i) default) ∧
      (∀ i j d, i < n → j < m → d < nxi →
        out.derivatives.getD (nxi * (i * m + j) + d) default =
          src.derivatives.getD (nxi * (j * n + i) + d) default)) ∧
    ((Computed_field_transpose_evaluate m (m * n) nxi (some src)).bind
        (fun t => Computed_field_transpose_evaluate n (m * n) nxi (some t)) =
      some ⟨src.values, src.derivatives, true⟩) := by
  have hcore : Computed_field_transpose_evaluate_core m (m * n) nxi src =
      ⟨transposeValues m n src.values,
       transposeDerivatives m n nxi src.derivatives, true⟩ := by
    unfold Computed_field_transpose_evaluate_core
    rw [Nat.mul_div_cancel_left n hm]
    simp [hvalid, hnxi.ne']
  refine ⟨?_, ?_, ?_⟩
  · unfold Cmiss_field_module_create_transpose
    simp [hm, Nat.mul_mod_right]
  · intro out hout
    simp only [Computed_field_transpose_evaluate, hcore,
      Option.some.injEq] at hout
    constructor
    · intro i j hi hj
      have hidx : i * m + j < n * m := by
        calc i * m + j < i * m + m := by omega
          _ = (i + 1) * m := by ring
          _ ≤ n * m := Nat.mul_le_mul_right m hi
      rw [← hout]
      simp only [transposeValues]
      rw [getD_map_range _ _ _ _ hidx, rowmajor_mod m i j hj,
        rowmajor_div m i j hj]
    · intro i j d hi hj hd2
      have hcomp : i * m + j < n * m := by
        calc i * m + j < i * m + m := by omega
          _ = (i + 1) * m := by ring
          _ ≤ n * m := Nat.mul_le_mul_right m hi
      have hidx : nxi * (i * m + j) + d < n * m * nxi := by
        calc nxi * (i * m + j) + d < nxi * (i * m + j) + nxi := by omega
          _ = nxi * (i * m + j + 1) := by ring
          _ ≤ nxi * (n * m) := Nat.mul_le_mul_left nxi (by omega)
          _ = n * m * nxi := by ring
      rw [← hout]
      simp only [transposeDerivatives]
      rw [getD_map_range _ _ _ _ hidx]
      have hdiv : (nxi * (i * m + j) + d) / nxi = i * m + j := by
        rw [Nat.mul_add_div hnxi, Nat.div_eq_of_lt hd2]
        omega
      have hmod : (nxi * (i * m + j) + d) % nxi = d := by
        rw [Nat.mul_add_mod, Nat.mod_eq_of_lt hd2]
      rw [hdiv, hmod, rowmajor_mod m i j hj, rowmajor_div m i j hj]
  · simp only [Computed_field_transpose_evaluate, hcore, Option.bind_some]
    have hcore2 : Computed_field_transpose_evaluate_core n (m * n) nxi
        (⟨transposeValues m n src.values,
          transposeDerivatives m n nxi src.derivatives, true⟩ :
            RealFieldValueCache α) =
        ⟨src.values, src.derivatives, true⟩ := by
      unfold Computed_field_transpose_evaluate_core
      rw [Nat.mul_comm m n, Nat.mul_div_cancel_left m hn]
      rw [transposeValues_involutive m n src.values hv,
        transposeDerivatives_involutive m n nxi src.derivatives hd]
      simp [hnxi.ne']
    simp [hcore2]

/-- Witness for C6: a concrete 2x1 matrix cache with one derivative direction
round-trips exactly through transpose(rows 2) then transpose(rows 1). -/
theorem C6_transpose_witness :
    (0 < 2 ∧ 0 < 1 ∧ ([5, 7] : List FE).length = 2 * 1 ∧
      ([1, 2] : List FE).length = 2 * 1 * 1) ∧
    ((Computed_field_transpose_evaluate 2 (2 * 1) 1
        (some (⟨[5, 7], [1, 2], true⟩ : RealFieldValueCache FE))).bind
      (fun t => Computed_field_transpose_evaluate 1 (2 * 1) 1 (some t)) =
      some ⟨[5, 7], [1, 2], true⟩) :=
  ⟨⟨by decide, by decide, by decide, by decide⟩,
   (C6_transpose 2 1 1 ⟨[5, 7], [1, 2], true⟩ (by decide) (by decide)
     (by decide) (by decide) (by decide) rfl).2.2⟩

/-! ## projection -/

/-- `Cmiss_field_module_create_projection`: both sources numerical, the
projection matrix component count exactly (n+1)*(m+1) where m is the source
component count; returns (number_of_components, matrix_rows, matrix_columns).
The row/column computation is C `int` arithmetic, modelled over `Int`. -/
def Cmiss_field_module_create_projection (srcComponents pmComponents : Nat)
    (num1 num2 : Bool) : Option (Nat × Nat × Nat) :=
  if num1 && num2 then
    if ((pmComponents : Int) / ((srcComponents : Int) + 1) - 1 + 1) *
        ((srcComponents : Int) + 1) = (pmComponents : Int) then
      some (((pmComponents : Int) / ((srcComponents : Int) + 1) - 1).toNat,
        ((pmComponents : Int) / ((srcComponents : Int) + 1)).toNat,
        srcComponents + 1)
    else
      none
  else
    none

/-- Raw transformed coordinate i of `Computed_field_projection::evaluate`
before the perspective divide: row i of the matrix times the source values,
with the last source value fixed at 1. -/
def projectionRawValue (m : Nat) (P x : List FE) (i : Nat) : FE :=
  ((List.range m).foldl (fun acc j =>
    acc + P.getD (i * (m + 1) + j) 0 * x.getD j 0) 0) +
    P.getD (i * (m + 1) + m) 0

/-- Value loop of `Computed_field_projection::evaluate`: each of the first
ncomp raw coordinates divided by the raw perspective coordinate (row ncomp). -/
def projectionValues (ncomp m : Nat) (P x : List FE) : List FE :=
  (List.range ncomp).map (fun i =>
    projectionRawValue m P x i / projectionRawValue m P x ncomp)

/-- Derivative of output component i in direction k
(`Computed_field_projection::evaluate`, quotient rule): coordinate derivative
without perspective divided by perspective, plus raw coordinate times the
derivative of the perspective reciprocal. -/
def projectionDerivEntry (ncomp m nxi : Nat) (P x dx : List FE) (i k : Nat) :
    FE :=
  ((List.range m).foldl (fun acc j =>
      acc + P.getD (i * (m + 1) + j) 0 * dx.getD (j * nxi + k) 0) 0) /
      projectionRawValue m P x ncomp +
    projectionRawValue m P x i *
      ((-1) / (projectionRawValue m P x ncomp * projectionRawValue m P x ncomp) *
        ((List.range m).foldl (fun acc j =>
          acc + P.getD (ncomp * (m + 1) + j) 0 * dx.getD (j * nxi + k) 0) 0))

/-- Derivative loop of `Computed_field_projection::evaluate`: entry i*nxi+k
holds the derivative of component i in direction k. -/
def projectionDerivatives (ncomp m nxi : Nat) (P x dx : List FE) : List FE :=
  (List.range (ncomp * nxi)).map (fun idx =>
    projectionDerivEntry ncomp m nxi P x dx (idx / nxi) (idx % nxi))

/-- Body of `Computed_field_projection::evaluate` once both source caches
evaluated: m = source component count fixed at construction. -/
def Computed_field_projection_evaluate_core (ncomp m nxi : Nat)
    (s1 s2 : RealFieldValueCache FE) : RealFieldValueCache FE :=
  if (nxi != 0) && s1.derivatives_valid && s2.derivatives_valid then
    ⟨projectionValues ncomp m s2.values s1.values,
     projectionDerivatives ncomp m nxi s2.values s1.values s1.derivatives,
     true⟩
  else
    ⟨projectionValues ncomp m s2.values s1.values, [], false⟩

/-- `Computed_field_projection::evaluate`: fails only when a source cache
failed to evaluate. -/
def Computed_field_projection_evaluate (ncomp m nxi : Nat)
    (source1Cache source2Cache : Option (RealFieldValueCache FE)) :
    Option (RealFieldValueCache FE) :=
  match source1Cache, source2Cache with
  | some s1, some s2 =>
    some (Computed_field_projection_evaluate_core ncomp m nxi s1 s2)
  | _, _ => none

/-- Spec-side homogeneous product: row i of the (n+1)x(m+1) matrix applied to
the source vector with an implicit homogeneous 1 appended as component m. -/
def homogeneousProduct (m : Nat) (P x : List FE) (i : Nat) : FE :=
  ∑ j ∈ Finset.range (m + 1),
    P.getD (i * (m + 1) + j) 0 * (if j < m then x.getD j 0 else 1)

/-- The code's raw coordinate (matrix row times values plus last matrix
entry) is the homogeneous product with an appended 1. -/
theorem projectionRawValue_eq_homogeneous (m : Nat) (P x : List FE) (i : Nat) :
    projectionRawValue m P x i = homogeneousProduct m P x i := by
  unfold projectionRawValue homogeneousProduct
  rw [foldl_add_range, zero_add, Finset.sum_range_succ]
  have hlast : P.getD (i * (m + 1) + m) 0 * (if m < m then x.getD m 0 else 1) =
      P.getD (i * (m + 1) + m) 0 := by simp
  rw [hlast]
  congr 1
  exact Finset.sum_congr rfl (fun j hj => by
    simp [Finset.mem_range.mp hj])

/-- C4: projection construction succeeds for an m-component source and a
pm-component matrix field exactly when (n+1)*(m+1) = pm, recording matrix
shape (n+1) x (m+1); evaluation appends an implicit homogeneous 1, multiplies
by the matrix, and returns exactly the first n computed components each
divided by the last (perspective) component. -/
theorem C4_projection :
    (∀ m pm n : Nat,
      Cmiss_field_module_create_projection m pm true true =
          some (n, n + 1, m + 1) ↔
        (n + 1) * (m + 1) = pm) ∧
    (∀ ncomp m nxi s1 s2 out,
      Computed_field_projection_evaluate ncomp m nxi (some s1) (some s2) =
          some out →
      out.values.length = ncomp ∧
      ∀ i, i < ncomp →
        out.values.getD i 0 =
          homogeneousProduct m s2.values s1.values i /
            homogeneousProduct m s2.values s1.values ncomp) := by
  constructor
  · intro m pm n
    constructor
    · intro h
      unfold Cmiss_field_module_create_projection at h
      simp only [Bool.and_self, if_true] at h
      split at h
      · rename_i hguard
        have hinj := Option.some.inj h
        have hq : ((pm : Int) / ((m : Int) + 1)).toNat = n + 1 :=
          congrArg (fun p => p.2.1) hinj
        have hqq : (pm : Int) / ((m : Int) + 1) = (n : Int) + 1 := by
          have hnonneg : 0 ≤ (pm : Int) / ((m : Int) + 1) :=
            Int.ediv_nonneg (by positivity) (by positivity)
          omega
        rw [hqq] at hguard
        have : ((n : Int) + 1 - 1 + 1) * ((m : Int) + 1) = (pm : Int) := hguard
        have hcast : ((n : Int) + 1) * ((m : Int) + 1) = (pm : Int) := by
          linarith
        exact_mod_cast hcast
      · exact absurd h (by simp)
    · intro h
      unfold Cmiss_field_module_create_projection
      have hpm : (pm : Int) = ((n : Int) + 1) * ((m : Int) + 1) := by
        exact_mod_cast h.symm
      have hdiv : (pm : Int) / ((m : Int) + 1) = (n : Int) + 1 := by
        rw [hpm]
        exact Int.mul_ediv_cancel _ (by positivity)
      simp only [Bool.and_self, if_true, hdiv]
      rw [if_pos (by linarith)]
      congr 2
      omega
  · intro ncomp m nxi s1 s2 out hout
    simp only [Computed_field_projection_evaluate, Option.some.injEq] at hout
    have hvalues : out.values = projectionValues ncomp m s2.values s1.values := by
      rw [← hout]
      unfold Computed_field_projection_evaluate_core
      by_cases h : (nxi != 0) && s1.derivatives_valid && s2.derivatives_valid <;>
        simp [h]
    constructor
    · rw [hvalues]; unfold projectionValues; simp
    · intro i hi
      rw [hvalues]
      unfold projectionValues
      rw [getD_map_range _ _ _ _ hi, projectionRawValue_eq_homogeneous,
        projectionRawValue_eq_homogeneous]

/-- Witness for C4: a 3-component source with a 16-component matrix is the
4x4 case, and a concrete 1-component projection with matrix [[2,0],[0,1]]
maps source value 3 to 6/1. -/
theorem C4_projection_witness :
    (Cmiss_field_module_create_projection 3 16 true true = some (3, 4, 4) ↔
      (3 + 1) * (3 + 1) = 16) ∧
    (([6] : List FE).length = 1 ∧
      ∀ i, i < 1 →
        ([6] : List FE).getD i 0 =
          homogeneousProduct 1 [2, 0, 0, 1] [3] i /
            homogeneousProduct 1 [2, 0, 0, 1] [3] 1) :=
  ⟨C4_projection.1 3 16 3,
   C4_projection.2 1 1 0 ⟨[3], [], false⟩ ⟨[2, 0, 0, 1], [], false⟩
     ⟨[6], [], false⟩
     (by
       simp [Computed_field_projection_evaluate,
         Computed_field_projection_evaluate_core, projectionValues,
         projectionRawValue, List.range_succ]
       norm_num)⟩

/-! ## derivative-validity propagation -/

/-- C8: for the differentiable operators matrix_multiply, projection and
transpose, a successful evaluation marks the output derivatives valid exactly
when derivatives were requested and every source cache had valid derivatives;
otherwise the flag is cleared as a whole. -/
theorem C8_derivative_propagation :
    (∀ m nc1 nc2 nxi (s1 s2 out : RealFieldValueCache FE),
      Computed_field_matrix_multiply_evaluate m nc1 nc2 nxi
          (some s1) (some s2) = some out →
      out.derivatives_valid =
        ((nxi != 0) && s1.derivatives_valid && s2.derivatives_valid)) ∧
    (∀ ncomp m nxi (s1 s2 out : RealFieldValueCache FE),
      Computed_field_projection_evaluate ncomp m nxi
          (some s1) (some s2) = some out →
      out.derivatives_valid =
        ((nxi != 0) && s1.derivatives_valid && s2.derivatives_valid)) ∧
    (∀ (α : Type) (_ia : Inhabited α) (m c nxi : Nat)
        (s out : RealFieldValueCache α),
      Computed_field_transpose_evaluate m c nxi (some s) = some out →
      out.derivatives_valid = ((nxi != 0) && s.derivatives_valid)) := by
  refine ⟨?_, ?_, ?_⟩
  · intro m nc1 nc2 nxi s1 s2 out hout
    simp only [Computed_field_matrix_multiply_evaluate,
      Option.some.injEq] at hout
    rw [← hout]
    unfold Computed_field_matrix_multiply_evaluate_core
    by_cases h : (nxi != 0) && s1.derivatives_valid && s2.derivatives_valid <;>
      simp [h]
  · intro ncomp m nxi s1 s2 out hout
    simp only [Computed_field_projection_evaluate, Option.some.injEq] at hout
    rw [← hout]
    unfold Computed_field_projection_evaluate_core
    by_cases h : (nxi != 0) && s1.derivatives_valid && s2.derivatives_valid <;>
      simp [h]
  · intro α _ia m c nxi s out hout
    simp only [Computed_field_transpose_evaluate, Option.some.injEq] at hout
    rw [← hout]
    unfold Computed_field_transpose_evaluate_core
    by_cases h : (nxi != 0) && s.derivatives_valid <;> simp [h]

/-- Witness for C8: with one requested direction and valid source
derivatives the matrix_multiply output flag is set; with none requested the
transpose output flag is cleared. -/
theorem C8_derivative_propagation_witness :
    ((Computed_field_matrix_multiply_evaluate_core 1 1 1 1
        ⟨[2], [3], true⟩ ⟨[5], [7], true⟩).derivatives_valid =
      ((1 != 0) && true && true)) ∧
    ((Computed_field_transpose_evaluate_core 1 1 0
        (⟨[2], [3], true⟩ : RealFieldValueCache FE)).derivatives_valid =
      ((0 != 0) && true)) :=
  ⟨C8_derivative_propagation.1 1 1 1 1 ⟨[2], [3], true⟩ ⟨[5], [7], true⟩ _ rfl,
   C8_derivative_propagation.2.2 FE inferInstance 1 1 0 ⟨[2], [3], true⟩ _ rfl⟩

/-! ## operator cores, compare, and eigenvectors construction -/

/-- The operator kinds defined in computed_field_matrix_operators.cpp with
their operator-specific parameters. -/
inductive FieldCore where
  | determinant
  | eigenvalues
  | eigenvectors
  | matrixInvert
  | matrixMultiply (number_of_rows : Nat)
  | projection (matrix_rows matrix_columns : Nat)
  | transpose (source_number_of_rows : Nat)
  | quaternionToMatrix
  | matrixToQuaternion
  deriving Repr, DecidableEq

/-- The `compare` virtual of each operator core: every class first checks the
other core is of its own dynamic type; `Computed_field_matrix_multiply`
additionally compares `number_of_rows` and `Computed_field_transpose`
compares `source_number_of_rows`, while `Computed_field_projection::compare`
checks nothing beyond the dynamic cast. -/
def FieldCore.compare : FieldCore → FieldCore → Bool
  | .determinant, .determinant => true
  | .eigenvalues, .eigenvalues => true
  | .eigenvectors, .eigenvectors => true
  | .matrixInvert, .matrixInvert => true
  | .matrixMultiply m1, .matrixMultiply m2 => m1 == m2
  | .projection _ _, .projection _ _ => true
  | .transpose r1, .transpose r2 => r1 == r2
  | .quaternionToMatrix, .quaternionToMatrix => true
  | .matrixToQuaternion, .matrixToQuaternion => true
  | _, _ => false

/-- C9 counterexample: two projection cores with different matrix dimensions
compare equal, so structural core comparison does identify two definitions
whose operator-specific parameters differ. -/
theorem C9_compare_counterexample :
    FieldCore.compare (.projection 4 4) (.projection 2 3) = true ∧
    ((4, 4) : Nat × Nat) ≠ (2, 3) := by decide

/-- C9 (amended): core compare returns true exactly when the two cores are
identical (same kind and equal parameters), except that projection's compare
ignores its matrix dimensions and accepts any other projection core. -/
theorem C9_compare_amended (a b : FieldCore) :
    a.compare b = true ↔
      (a = b ∨ ∃ r1 c1 r2 c2,
        a = FieldCore.projection r1 c1 ∧ b = FieldCore.projection r2 c2) := by
  cases a <;> cases b <;>
    simp [FieldCore.compare]

/-- A computed field as relevant here: its operator core and its fixed output
component count. -/
structure Computed_field where
  core : FieldCore
  number_of_components : Nat
  deriving Repr, DecidableEq

/-- `Computed_field_is_type_eigenvalues`: dynamic_cast of the core to
`Computed_field_eigenvalues`. -/
def Computed_field_is_type_eigenvalues (f : Computed_field) : Bool :=
  match f.core with
  | .eigenvalues => true
  | _ => false

/-- `Cmiss_field_module_create_eigenvectors`: requires the source to be an
eigenvalues-type field with n components; the new field has n*n components. -/
def Cmiss_field_module_create_eigenvectors (eigenvalues_field : Computed_field) :
    Option Computed_field :=
  if Computed_field_is_type_eigenvalues eigenvalues_field then
    some ⟨.eigenvectors,
      eigenvalues_field.number_of_components *
        eigenvalues_field.number_of_components⟩
  else
    none

/-- C10: eigenvectors construction succeeds exactly when the source is an
eigenvalues-operator field (any other field, square-matrix-valued or not,
yields no field), and the new field has n*n components for an n-component
eigenvalues source. -/
theorem C10_create_eigenvectors :
    (∀ f : Computed_field,
      (Cmiss_field_module_create_eigenvectors f).isSome ↔
        f.core = FieldCore.eigenvalues) ∧
    (∀ f out, Cmiss_field_module_create_eigenvectors f = some out →
      out.core = FieldCore.eigenvectors ∧
      out.number_of_components =
        f.number_of_components * f.number_of_components) := by
  constructor
  · intro f
    obtain ⟨core, n⟩ := f
    cases core <;>
      simp [Cmiss_field_module_create_eigenvectors,
        Computed_field_is_type_eigenvalues]
  · intro f out h
    obtain ⟨core, n⟩ := f
    cases core <;>
      simp only [Cmiss_field_module_create_eigenvectors,
        Computed_field_is_type_eigenvalues, if_true, if_false,
        Option.some.injEq, reduceCtorEq] at h
    rw [← h]
    exact ⟨rfl, rfl⟩

/-- Witness for C10: a matrix_invert field (9-component square matrix) fails
eigenvectors construction, and a 3-component eigenvalues field yields a
9-component eigenvectors field. -/
theorem C10_create_eigenvectors_witness :
    ((Cmiss_field_module_create_eigenvectors ⟨.matrixInvert, 9⟩).isSome ↔
      FieldCore.matrixInvert = FieldCore.eigenvalues) ∧
    ((⟨FieldCore.eigenvectors, 9⟩ : Computed_field).core =
        FieldCore.eigenvectors ∧
      (⟨FieldCore.eigenvectors, 9⟩ : Computed_field).number_of_components =
        3 * 3) :=
  ⟨C10_create_eigenvectors.1 ⟨.matrixInvert, 9⟩,
   C10_create_eigenvectors.2 ⟨.eigenvalues, 3⟩ ⟨.eigenvectors, 9⟩ rfl⟩

/-! ## LU kernel

The dense LU routines live in general/matrix_vector.c, which is not part of
the sources here; they are modelled from the spec (section 4.4): partial
pivoting, failure when a pivot magnitude falls below the singular tolerance,
and back-substitution of a right-hand side against the decomposition. -/

/-- One elimination step of the modelled LU decomposition: the chosen pivot
position among the remaining rows, the pivot row itself, and the multipliers
applied to the other rows. -/
structure LUStep where
  piv : Nat
  prow : List FE
  mults : List FE
  deriving Repr

/-- Modelled from the spec: partial pivoting scans the leading column of the
remaining rows for the entry of largest absolute value (first maximum wins). -/
def pivotIndexAux (rows : List (List FE)) (k bestIdx : Nat) (bestVal : FE) :
    Nat :=
  match rows with
  | [] => bestIdx
  | r :: rest =>
    if bestVal < |r.headD 0| then pivotIndexAux rest (k + 1) k |r.headD 0|
    else pivotIndexAux rest (k + 1) bestIdx bestVal

/-- Modelled from the spec: index of the partial-pivoting row choice. -/
def pivotIndex (rows : List (List FE)) : Nat :=
  match rows with
  | [] => 0
  | r :: rest => pivotIndexAux rest 1 0 |r.headD 0|

/-- Modelled from the spec: eliminate the leading column of the non-pivot
rows against pivot row k, keeping the trailing columns. -/
def schurComplement (rows : List (List FE)) (k : Nat) : List (List FE) :=
  (rows.eraseIdx k).map (fun r =>
    List.zipWith (fun x y => x - r.headD 0 / (rows.getD k []).headD 0 * y)
      r.tail (rows.getD k []).tail)

/-- Modelled from the spec (`LU_decompose` of general/matrix_vector.c):
Gaussian elimination with partial pivoting, failing when the magnitude of a
chosen pivot falls below the singular tolerance. -/
def LU_decompose_aux (tol : FE) : Nat → List (List FE) → Option (List LUStep)
  | 0, _ => some []
  | fuel + 1, rows =>
    if |(rows.getD (pivotIndex rows) []).headD 0| < tol then
      none
    else
      match LU_decompose_aux tol fuel (schurComplement rows (pivotIndex rows)) with
      | none => none
      | some steps =>
        some (⟨pivotIndex rows, rows.getD (pivotIndex rows) [],
          (rows.eraseIdx (pivotIndex rows)).map (fun r =>
            r.headD 0 / (rows.getD (pivotIndex rows) []).headD 0)⟩ :: steps)

/-- Row-major n x n matrix as a list of rows. -/
def toRows (n : Nat) (a : List FE) : List (List FE) :=
  (List.range n).map (fun i => (List.range n).map (fun j => a.getD (i * n + j) 0))

/-- Modelled from the spec (`LU_decompose`): decompose the flat row-major
n x n matrix with the given singular tolerance. -/
def LU_decompose (tol : FE) (n : Nat) (a : List FE) : Option (List LUStep) :=
  LU_decompose_aux tol n (toRows n a)

/-- Dot product of two value lists. -/
def dotProduct (u v : List FE) : FE :=
  (List.zipWith (fun x y => x * y) u v).sum

/-- Modelled from the spec (`LU_backsubstitute` of general/matrix_vector.c):
replay the recorded elimination on the right-hand side, then back-substitute,
returning the solution components in original column order. -/
def LU_backsubstitute (steps : List LUStep) (b : List FE) : List FE :=
  match steps with
  | [] => []
  | step :: rest =>
    (b.getD step.piv 0 -
        dotProduct step.prow.tail
          (LU_backsubstitute rest
            (List.zipWith (fun bi mi => bi - mi * b.getD step.piv 0)
              (b.eraseIdx step.piv) step.mults))) /
      step.prow.headD 0 ::
    LU_backsubstitute rest
      (List.zipWith (fun bi mi => bi - mi * b.getD step.piv 0)
        (b.eraseIdx step.piv) step.mults)

/-- Standard basis vector e_i of length n. -/
def basisVector (n i : Nat) : List FE :=
  (List.range n).map (fun j => if j = i then 1 else 0)

/-! ## matrix_invert -/

/-- `Computed_field_matrix_invert::evaluate`: copy the n x n source values,
LU-decompose with singular tolerance 1e-12 (failure = evaluation failure,
cache left invalid), then back-substitute each standard basis vector e_i and
store the solution as column i of the output. -/
def Computed_field_matrix_invert_evaluate (n : Nat) :
    Option (List FE) → Option (List FE)
  | none => none
  | some src =>
    match LU_decompose (1 / 1000000000000) n src with
    | none => none
    | some steps =>
      some ((List.range (n * n)).map (fun idx =>
        (LU_backsubstitute steps (basisVector n (idx % n))).getD (idx / n) 0))

/-- C7: matrix_invert evaluation fails (returns no value, no crash) exactly
when the tolerance-1e-12 partial-pivoting LU decomposition of the source
matrix fails, and on success entry j*n+i of the output is component j of the
back-substituted basis vector e_i, i.e. column i of the inverse. -/
theorem C7_matrix_invert :
    (∀ n src, LU_decompose (1 / 1000000000000 : FE) n src = none →
      Computed_field_matrix_invert_evaluate n (some src) = none) ∧
    (∀ n src steps,
      LU_decompose (1 / 1000000000000 : FE) n src = some steps →
      ∃ out, Computed_field_matrix_invert_evaluate n (some src) = some out ∧
        out.length = n * n ∧
        ∀ i j, i < n → j < n →
          out.getD (j * n + i) 0 =
            (LU_backsubstitute steps (basisVector n i)).getD j 0) := by
  constructor
  · intro n src h
    simp only [Computed_field_matrix_invert_evaluate, h]
  · intro n src steps h
    refine ⟨(List.range (n * n)).map (fun idx =>
      (LU_backsubstitute steps (basisVector n (idx % n))).getD (idx / n) 0),
      ?_, by simp, ?_⟩
    · simp only [Computed_field_matrix_invert_evaluate, h]
    · intro i j hi hj
      have hidx : j * n + i < n * n := by
        calc j * n + i < j * n + n := by omega
          _ = (j + 1) * n := by ring
          _ ≤ n * n := Nat.mul_le_mul_right n hj
      rw [getD_map_range _ _ _ _ hidx, rowmajor_mod n j i hi,
        rowmajor_div n j i hi]

/-- Concrete LU elimination record of the 2x2 identity matrix, used by the
C7 witness. -/
def luIdentity2 : List LUStep := [⟨0, [1, 0], [0]⟩, ⟨0, [1], []⟩]

/-- Witness for C7: the singular 2x2 zero matrix fails LU decomposition and
therefore fails matrix_invert evaluation; the 2x2 identity succeeds. -/
theorem C7_matrix_invert_witness :
    Computed_field_matrix_invert_evaluate 2 (some [0, 0, 0, 0]) = none ∧
    (∃ out, Computed_field_matrix_invert_evaluate 2 (some [1, 0, 0, 1]) =
        some out ∧ out.length = 2 * 2 ∧
      ∀ i j, i < 2 → j < 2 →
        out.getD (j * 2 + i) 0 =
          (LU_backsubstitute (luIdentity2) (basisVector 2 i)).getD j 0) :=
  ⟨C7_matrix_invert.1 2 [0, 0, 0, 0] (by
      norm_num [LU_decompose, LU_decompose_aux, toRows, pivotIndex,
        pivotIndexAux, schurComplement, List.range_succ, List.getD,
        List.getElem?_cons_zero, List.getElem?_cons_succ, List.headD,
        List.head?, List.tail]),
   C7_matrix_invert.2 2 [1, 0, 0, 1] luIdentity2 (by
      norm_num [LU_decompose, LU_decompose_aux, toRows, pivotIndex,
        pivotIndexAux, schurComplement, List.range_succ, luIdentity2,
        List.getD, List.getElem?_cons_zero, List.getElem?_cons_succ,
        List.headD, List.head?, List.tail])⟩

/-! ## projection assign -/

/-- `Computed_field_projection::assign`: only the 3-component source with a
4x4 matrix supports assignment; the projection matrix is evaluated,
LU-decomposed with tolerance 1e-12, the homogeneous right-hand side
(v0, v1, v2, 1) solved, and the first three solution components divided by
the fourth; a failed decomposition or a fourth component of exactly zero
fails.  The returned list holds the values written to the coordinate field. -/
def Computed_field_projection_assign (ncomp matrix_rows matrix_columns : Nat)
    (values : List FE) (projectionCache : Option (List FE)) :
    Option (List FE) :=
  if ncomp == 3 && matrix_rows == 4 && matrix_columns == 4 then
    match projectionCache with
    | none => none
    | some projection_matrix =>
      match LU_decompose (1 / 1000000000000) 4 projection_matrix with
      | none => none
      | some steps =>
        if (LU_backsubstitute steps
            [values.getD 0 0, values.getD 1 0, values.getD 2 0, 1]).getD 3 0 =
            0 then
          none
        else
          some [(LU_backsubstitute steps
              [values.getD 0 0, values.getD 1 0, values.getD 2 0, 1]).getD 0 0 /
              (LU_backsubstitute steps
              [values.getD 0 0, values.getD 1 0, values.getD 2 0, 1]).getD 3 0,
            (LU_backsubstitute steps
              [values.getD 0 0, values.getD 1 0, values.getD 2 0, 1]).getD 1 0 /
              (LU_backsubstitute steps
              [values.getD 0 0, values.getD 1 0, values.getD 2 0, 1]).getD 3 0,
            (LU_backsubstitute steps
              [values.getD 0 0, values.getD 1 0, values.getD 2 0, 1]).getD 2 0 /
              (LU_backsubstitute steps
              [values.getD 0 0, values.getD 1 0, values.getD 2 0, 1]).getD 3 0]
  else
    none

/-- C5: projection assignment succeeds only in the 3-component / 4x4 case; a
missing projection value, a singular matrix (tolerance 1e-12) or an exactly
zero solved homogeneous coordinate fails; otherwise it returns the LU
solution of the homogeneous system divided by its fourth component. -/
theorem C5_projection_assign :
    (∀ ncomp rows cols values pc, ¬(ncomp = 3 ∧ rows = 4 ∧ cols = 4) →
      Computed_field_projection_assign ncomp rows cols values pc = none) ∧
    (∀ values,
      Computed_field_projection_assign 3 4 4 values none = none) ∧
    (∀ values P, LU_decompose (1 / 1000000000000 : FE) 4 P = none →
      Computed_field_projection_assign 3 4 4 values (some P) = none) ∧
    (∀ values P steps,
      LU_decompose (1 / 1000000000000 : FE) 4 P = some steps →
      (LU_backsubstitute steps
          [values.getD 0 0, values.getD 1 0, values.getD 2 0, 1]).getD 3 0 =
        0 →
      Computed_field_projection_assign 3 4 4 values (some P) = none) ∧
    (∀ values P steps,
      LU_decompose (1 / 1000000000000 : FE) 4 P = some steps →
      (LU_backsubstitute steps
          [values.getD 0 0, values.getD 1 0, values.getD 2 0, 1]).getD 3 0 ≠
        0 →
      Computed_field_projection_assign 3 4 4 values (some P) =
        some [(LU_backsubstitute steps
            [values.getD 0 0, values.getD 1 0, values.getD 2 0, 1]).getD 0 0 /
            (LU_backsubstitute steps
            [values.getD 0 0, values.getD 1 0, values.getD 2 0, 1]).getD 3 0,
          (LU_backsubstitute steps
            [values.getD 0 0, values.getD 1 0, values.getD 2 0, 1]).getD 1 0 /
            (LU_backsubstitute steps
            [values.getD 0 0, values.getD 1 0, values.getD 2 0, 1]).getD 3 0,
          (LU_backsubstitute steps
            [values.getD 0 0, values.getD 1 0, values.getD 2 0, 1]).getD 2 0 /
            (LU_backsubstitute steps
            [values.getD 0 0, values.getD 1 0, values.getD 2 0, 1]).getD 3 0]) := by
  refine ⟨?_, ?_, ?_, ?_, ?_⟩
  · intro ncomp rows cols values pc h
    unfold Computed_field_projection_assign
    rw [if_neg]
    simp only [Bool.and_eq_true, beq_iff_eq]
    tauto
  · intro values
    unfold Computed_field_projection_assign
    rw [if_pos (by simp)]
  · intro values P h
    unfold Computed_field_projection_assign
    rw [if_pos (by simp)]
    simp only [h]
  · intro values P steps h h0
    unfold Computed_field_projection_assign
    rw [if_pos (by simp)]
    simp only [h, h0, if_true, if_pos rfl]
  · intro values P steps h h0
    unfold Computed_field_projection_assign
    rw [if_pos (by simp)]
    simp only [h]
    rw [if_neg h0]

/-- Concrete LU elimination record of the 4x4 identity matrix, used by the
C5 witness. -/
def luIdentity4 : List LUStep :=
  [⟨0, [1, 0, 0, 0], [0, 0, 0]⟩, ⟨0, [1, 0, 0], [0, 0]⟩,
   ⟨0, [1, 0], [0]⟩, ⟨0, [1], []⟩]

/-- Witness for C5: a 2-component shape fails assignment, and assigning
(2, 3, 4) through the identity projection matrix solves the homogeneous
system with fourth coordinate 1. -/
theorem C5_projection_assign_witness :
    Computed_field_projection_assign 2 4 4 [] none = none ∧
    Computed_field_projection_assign 3 4 4 [2, 3, 4]
        (some [1, 0, 0, 0, 0, 1, 0, 0, 0, 0, 1, 0, 0, 0, 0, 1]) =
      some [(LU_backsubstitute luIdentity4
          [([2, 3, 4] : List FE).getD 0 0, ([2, 3, 4] : List FE).getD 1 0,
            ([2, 3, 4] : List FE).getD 2 0, 1]).getD 0 0 /
          (LU_backsubstitute luIdentity4
          [([2, 3, 4] : List FE).getD 0 0, ([2, 3, 4] : List FE).getD 1 0,
            ([2, 3, 4] : List FE).getD 2 0, 1]).getD 3 0,
        (LU_backsubstitute luIdentity4
          [([2, 3, 4] : List FE).getD 0 0, ([2, 3, 4] : List FE).getD 1 0,
            ([2, 3, 4] : List FE).getD 2 0, 1]).getD 1 0 /
          (LU_backsubstitute luIdentity4
          [([2, 3, 4] : List FE).getD 0 0, ([2, 3, 4] : List FE).getD 1 0,
            ([2, 3, 4] : List FE).getD 2 0, 1]).getD 3 0,
        (LU_backsubstitute luIdentity4
          [([2, 3, 4] : List FE).getD 0 0, ([2, 3, 4] : List FE).getD 1 0,
            ([2, 3, 4] : List FE).getD 2 0, 1]).getD 2 0 /
          (LU_backsubstitute luIdentity4
          [([2, 3, 4] : List FE).getD 0 0, ([2, 3, 4] : List FE).getD 1 0,
            ([2, 3, 4] : List FE).getD 2 0, 1]).getD 3 0] :=
  ⟨C5_projection_assign.1 2 4 4 [] none (by omega),
   C5_projection_assign.2.2.2.2 [2, 3, 4]
     [1, 0, 0, 0, 0, 1, 0, 0, 0, 0, 1, 0, 0, 0, 0, 1] luIdentity4
     (by
       norm_num [LU_decompose, LU_decompose_aux, toRows, pivotIndex,
         pivotIndexAux, schurComplement, List.range_succ, luIdentity4,
         List.getD, List.getElem?_cons_zero, List.getElem?_cons_succ,
         List.headD, List.head?, List.tail])
     (by
       norm_num [LU_backsubstitute, luIdentity4, dotProduct, List.getD,
         List.getElem?_cons_zero, List.getElem?_cons_succ, List.headD,
         List.head?, List.tail, List.eraseIdx])⟩

/-! ## eigenvalues / eigenvectors

`matrix_is_symmetric`, `Jacobi_eigenanalysis` and `eigensort` live in
general/matrix_vector.c, which is not part of the sources here.
`matrix_is_symmetric` and `eigensort` are modelled from the spec; the Jacobi
iteration itself (whose rotations are irrational) is abstracted as an
arbitrary kernel function parameter, so every statement below holds for any
kernel result. -/

/-- Modelled from the spec: symmetry check of the n x n matrix with the given
tolerance, violated entries differing by more than `tol` across the
diagonal. -/
def matrix_is_symmetric (n : Nat) (a : List FE) (tol : FE) : Bool :=
  (List.range n).all (fun i => (List.range n).all (fun j =>
    decide (|a.getD (i * n + j) 0 - a.getD (j * n + i) 0| ≤ tol)))

/-- Ordering used by the modelled `eigensort`: descending by eigenvalue. -/
def eigOrder (p q : FE × Nat) : Prop := q.1 ≤ p.1

instance : DecidableRel eigOrder := fun p q =>
  inferInstanceAs (Decidable (q.1 ≤ p.1))

instance : IsTotal (FE × Nat) eigOrder := ⟨fun a b => le_total b.1 a.1⟩

instance : IsTrans (FE × Nat) eigOrder :=
  ⟨fun _ _ _ h1 h2 => le_trans h2 h1⟩

/-- Modelled from the spec (`eigensort` of general/matrix_vector.c):
eigenvalue/column-index pairs sorted into descending eigenvalue order. -/
def eigensortPairs (n : Nat) (values : List FE) : List (FE × Nat) :=
  List.insertionSort eigOrder ((List.range n).map (fun i => (values.getD i 0, i)))

/-- Modelled from the spec: the eigenvalues after descending sort. -/
def eigensortValues (n : Nat) (values : List FE) : List FE :=
  (List.range n).map (fun i => ((eigensortPairs n values).getD i (0, 0)).1)

/-- Modelled from the spec: the eigenvector matrix (eigenvectors in columns)
with its columns permuted by the same descending sort. -/
def eigensortVectors (n : Nat) (values v : List FE) : List FE :=
  (List.range (n * n)).map (fun idx =>
    v.getD ((idx / n) * n + ((eigensortPairs n values).getD (idx % n) (0, 0)).2) 0)

/-- `EigenvalueFieldValueCache`: the copied source matrix `a`, the sorted
eigenvalues (`values` of the base class) and the eigenvector matrix `v`
(eigenvectors in columns) kept for the paired eigenvectors field. -/
structure EigenvalueFieldValueCache where
  a : List FE
  values : List FE
  v : List FE
  deriving Repr, DecidableEq

/-- `Computed_field_eigenvalues::evaluate`: copy the source matrix, warn (but
do not fail) when the symmetry check with tolerance 1e-6 is violated, run the
Jacobi kernel, sort descending, and cache eigenvalues and eigenvectors.  The
second component records whether the warning was emitted. -/
def Computed_field_eigenvalues_evaluate
    (jacobi : Nat → List FE → Option (List FE × List FE)) (n : Nat) :
    Option (List FE) → Option EigenvalueFieldValueCache × Bool
  | none => (none, false)
  | some src =>
    match jacobi n ((List.range (n * n)).map (fun i => src.getD i 0)) with
    | none => (none, !matrix_is_symmetric n
        ((List.range (n * n)).map (fun i => src.getD i 0)) (1 / 1000000))
    | some (vals, v) =>
      (some ⟨(List.range (n * n)).map (fun i => src.getD i 0),
          eigensortValues n vals, eigensortVectors n vals v⟩,
       !matrix_is_symmetric n
         ((List.range (n * n)).map (fun i => src.getD i 0)) (1 / 1000000))

/-- `Computed_field_eigenvectors::evaluate`: read the eigenvalues field's
cached eigenvector matrix `v` (no recomputation — the cache is its only
input) and return eigenvector i across row i: out[i*n+j] = v[j*n+i]. -/
def Computed_field_eigenvectors_evaluate (n : Nat) :
    Option EigenvalueFieldValueCache → Option (List FE)
  | none => none
  | some c =>
    some ((List.range (n * n)).map (fun idx =>
      c.v.getD ((idx % n) * n + idx / n) 0))

/-- The modelled eigensort output is descending. -/
theorem eigensortValues_descending (n : Nat) (vals : List FE) (i j : Nat)
    (hij : i ≤ j) (hj : j < n) :
    (eigensortValues n vals).getD j 0 ≤ (eigensortValues n vals).getD i 0 := by
  have hlen : (eigensortPairs n vals).length = n := by
    simp [eigensortPairs, List.length_insertionSort]
  have hsorted : List.Sorted eigOrder (eigensortPairs n vals) :=
    List.sorted_insertionSort eigOrder _
  unfold eigensortValues
  rw [getD_map_range n _ j 0 hj, getD_map_range n _ i 0 (by omega)]
  rcases Nat.lt_or_ge i j with hlt | hge
  · have hrel : eigOrder ((eigensortPairs n vals).get ⟨i, by omega⟩)
        ((eigensortPairs n vals).get ⟨j, by omega⟩) :=
      List.Sorted.rel_get_of_lt hsorted (by simpa using hlt)
    rw [List.getD_eq_getElem _ _ (by omega), List.getD_eq_getElem _ _ (by omega)]
    exact hrel
  · have hij2 : i = j := by omega
    rw [hij2]

/-- C2: for every Jacobi kernel result, the eigenvalues field's evaluation
emits the non-fatal symmetry warning (tolerance 1e-6) exactly when the check
fails while success is determined by the kernel alone; the cached eigenvalues
are sorted in descending order; and the eigenvectors field reads the cached
eigenvector matrix (its only input) and returns eigenvector i as row i:
out[i*n+j] = v[j*n+i]. -/
theorem C2_eigen (jacobi : Nat → List FE → Option (List FE × List FE))
    (n : Nat) (src : List FE) :
    ((Computed_field_eigenvalues_evaluate jacobi n (some src)).2 =
      !matrix_is_symmetric n
        ((List.range (n * n)).map (fun i => src.getD i 0)) (1 / 1000000)) ∧
    ((Computed_field_eigenvalues_evaluate jacobi n (some src)).1.isSome ↔
      (jacobi n ((List.range (n * n)).map (fun i => src.getD i 0))).isSome) ∧
    (∀ cache,
      (Computed_field_eigenvalues_evaluate jacobi n (some src)).1 =
          some cache →
      (∀ i j, i ≤ j → j < n →
        cache.values.getD j 0 ≤ cache.values.getD i 0) ∧
      (∀ out, Computed_field_eigenvectors_evaluate n (some cache) = some out →
        out.length = n * n ∧
        ∀ i j, i < n → j < n →
          out.getD (i * n + j) 0 = cache.v.getD (j * n + i) 0)) := by
  refine ⟨?_, ?_, ?_⟩
  · simp only [Computed_field_eigenvalues_evaluate]
    cases hj : jacobi n ((List.range (n * n)).map (fun i => src.getD i 0)) with
    | none => rfl
    | some p => cases p with | mk vals v => rfl
  · simp only [Computed_field_eigenvalues_evaluate]
    cases hj : jacobi n ((List.range (n * n)).map (fun i => src.getD i 0)) with
    | none => simp [hj]
    | some p => cases p with | mk vals v => simp [hj]
  · intro cache hcache
    simp only [Computed_field_eigenvalues_evaluate] at hcache
    cases hj : jacobi n ((List.range (n * n)).map (fun i => src.getD i 0)) with
    | none => rw [hj] at hcache; simp at hcache
    | some p =>
      cases p with
      | mk vals v =>
        rw [hj] at hcache
        simp only [Option.some.injEq] at hcache
        constructor
        · intro i j hij hj2
          rw [← hcache]
          exact eigensortValues_descending n vals i j hij hj2
        · intro out hout
          simp only [Computed_field_eigenvectors_evaluate,
            Option.some.injEq] at hout
          constructor
          · rw [← hout]; simp
          · intro i j hi hj2
            have hidx : i * n + j < n * n := by
              calc i * n + j < i * n + n := by omega
                _ = (i + 1) * n := by ring
                _ ≤ n * n := Nat.mul_le_mul_right n hi
            rw [← hout, getD_map_range _ _ _ _ hidx,
              rowmajor_mod n i j hj2, rowmajor_div n i j hj2]

/-- A stub Jacobi kernel returning fixed eigenvalues and eigenvector matrix,
used only to instantiate the kernel parameter in the C2 witness. -/
def jacobiStub (vals v : List FE) : Nat → List FE → Option (List FE × List FE) :=
  fun _ _ => some (vals, v)

/-- The concrete eigenvalue cache produced in the C2 witness: source matrix
[[1,2],[2,1]], kernel eigenvalues [1,3] sorted to [3,1], kernel columns
[5,7] and [6,8] swapped accordingly. -/
def eigenCacheW : EigenvalueFieldValueCache :=
  ⟨[1, 2, 2, 1], [3, 1], [6, 5, 8, 7]⟩

/-- Witness for C2 at a concrete input: the cached eigenvalues [3,1] are
descending and the eigenvectors field transposes the cached columns into
rows. -/
theorem C2_eigen_witness :
    (∀ i j, i ≤ j → j < 2 →
      eigenCacheW.values.getD j 0 ≤ eigenCacheW.values.getD i 0) ∧
    (∀ out, Computed_field_eigenvectors_evaluate 2 (some eigenCacheW) =
        some out →
      out.length = 2 * 2 ∧
      ∀ i j, i < 2 → j < 2 →
        out.getD (i * 2 + j) 0 = eigenCacheW.v.getD (j * 2 + i) 0) :=
  (C2_eigen (jacobiStub [1, 3] [5, 6, 7, 8]) 2 [1, 2, 2, 1]).2.2 eigenCacheW
    (by
      norm_num [Computed_field_eigenvalues_evaluate, jacobiStub, eigenCacheW,
        eigensortValues, eigensortVectors, eigensortPairs, List.insertionSort,
        List.orderedInsert, eigOrder, List.range_succ, List.getD,
        List.getElem?_cons_zero, List.getElem?_cons_succ])

end Zinc
